import Mathlib

set_option autoImplicit false
set_option maxRecDepth 4000

namespace UnityServer

/-!
Shallow embedding of `server.py`: a static HTTP file server for Unity WebGL
builds, built as a subclass (`UnityWebGLHandler`) of Python's
`http.server.SimpleHTTPRequestHandler`.  Request paths and filesystem keys are
modelled as lists of characters; the filesystem is an association list from
paths to entries.  The inherited standard-library behaviour the handler
delegates to (`BaseHTTPRequestHandler` method dispatch,
`SimpleHTTPRequestHandler.send_head` / `translate_path` / `guess_type`,
`posixpath.normpath`) is embedded alongside the overrides, since the class
inherits it.
-/

/-- Paths (request paths and filesystem keys) as character lists. -/
abbrev PathStr := List Char

/-- Python `str.split(sep)` for a one-character separator
(`"".split("/") = [""]`, `"/a".split("/") = ["", "a"]`). -/
def splitOnChar (sep : Char) : PathStr → List PathStr
  | [] => [[]]
  | c :: rest =>
    if c = sep then [] :: splitOnChar sep rest
    else
      match splitOnChar sep rest with
      | [] => [[c]]
      | h :: t => (c :: h) :: t

/-- `s.split(sep, 1)[0]`: the part of `s` before the first occurrence of
`sep` (the whole of `s` when `sep` does not occur). -/
def takeUntil (sep : Char) (s : PathStr) : PathStr := s.takeWhile (· ≠ sep)

/-- Python `str.rstrip()`: drop trailing whitespace. -/
def rstrip (s : PathStr) : PathStr := (s.reverse.dropWhile Char.isWhitespace).reverse

/-- Python `str.endswith(suffix)`. -/
def endsWithS (s suffix : PathStr) : Bool := suffix.isSuffixOf s

/-- Python `str.lower()` (per-character lowering). -/
def lowerS (s : PathStr) : PathStr := s.map Char.toLower

/-- `"/".join(parts)` restricted to a one-character separator. -/
def intercalateChar (sep : Char) : List PathStr → PathStr
  | [] => []
  | [x] => x
  | x :: y :: ys => x ++ sep :: intercalateChar sep (y :: ys)

/-- The number of leading slashes `posixpath.normpath` preserves (one, or two
for the POSIX special case of exactly two leading slashes). -/
def initialSlashCount (path : PathStr) : Nat :=
  if path.take 1 = ['/'] then
    if path.take 2 = ['/', '/'] ∧ ¬ path.take 3 = ['/', '/', '/'] then 2 else 1
  else 0

/-- The component scan of `posixpath.normpath`: drop empty and `.`
components, resolve `..` against the accumulated components (leading `..` of
a relative path survive, `..` at the root of an absolute path vanishes). -/
def normComps (initialSlashes : Nat) (comps : List PathStr) : List PathStr :=
  comps.foldl (fun acc comp =>
    if comp = [] ∨ comp = ['.'] then acc
    else if ¬ comp = ['.', '.'] ∨ (initialSlashes = 0 ∧ acc = [])
        ∨ acc.getLast? = some ['.', '.'] then acc ++ [comp]
    else if ¬ acc = [] then acc.dropLast
    else acc) []

/-- Models `posixpath.normpath`: collapse slashes, drop `.` components and
resolve `..` components lexically. -/
def normpath (path : PathStr) : PathStr :=
  if path = [] then ['.']
  else
    let out := List.replicate (initialSlashCount path) '/'
      ++ intercalateChar '/' (normComps (initialSlashCount path) (splitOnChar '/' path))
    if out = [] then ['.'] else out

/-- Models `posixpath.join` for two components. -/
def osJoin (p w : PathStr) : PathStr :=
  if w.take 1 = ['/'] then w
  else if p = [] ∨ endsWithS p ['/'] then p ++ w
  else p ++ '/' :: w

/-- Models `SimpleHTTPRequestHandler.translate_path`: strip the query and
fragment, remember whether the path (right-stripped) ends with a slash,
normalize with `posixpath.normpath`, and rebuild the result under the
configured directory, skipping any component that is `.`, `..` or contains a
separator.  (`urllib.parse.unquote` is modelled as the identity: modelled
request paths carry no percent-escapes.) -/
def translatePath (directory : PathStr) (rawPath : PathStr) : PathStr :=
  let p := takeUntil '#' (takeUntil '?' rawPath)
  let trailingSlash := endsWithS (rstrip p) ['/']
  let np := normpath p
  let words := (splitOnChar '/' np).filter (· ≠ [])
  let path := words.foldl (fun acc word =>
    if word.contains '/' ∨ word = ['.'] ∨ word = ['.', '.'] then acc
    else osJoin acc word) directory
  if trailingSlash then path ++ ['/'] else path

/-- A filesystem entry: a regular file with its byte contents, or a directory. -/
inductive Entry where
  | file (content : List Nat) : Entry
  | dir : Entry
deriving DecidableEq, Repr

/-- The filesystem: an association list from paths to entries (first binding
wins).  Directory entries are listed explicitly. -/
abbrev Fs := List (PathStr × Entry)

/-- First entry bound to `p`, if any. -/
def fsFind (fs : Fs) (p : PathStr) : Option Entry :=
  match fs with
  | [] => none
  | (k, e) :: rest => if k = p then some e else fsFind rest p

/-- Drop a single trailing slash (as POSIX path lookup tolerates on
directories). -/
def stripTrailingSlash (p : PathStr) : PathStr :=
  if endsWithS p ['/'] then p.dropLast else p

/-- Models `os.path.isdir`. -/
def pathIsDir (fs : Fs) (p : PathStr) : Bool :=
  match fsFind fs (stripTrailingSlash p) with
  | some Entry.dir => true
  | _ => false

/-- Models `os.path.isfile` (a trailing slash never names a regular file). -/
def pathIsFile (fs : Fs) (p : PathStr) : Bool :=
  if endsWithS p ['/'] then false
  else
    match fsFind fs p with
    | some (Entry.file _) => true
    | _ => false

/-- Models `os.path.exists`. -/
def pathExists (fs : Fs) (p : PathStr) : Bool :=
  if endsWithS p ['/'] then pathIsDir fs p else (fsFind fs p).isSome

/-- Byte contents of the file at `p` (empty when `p` is not a file). -/
def fileContent (fs : Fs) (p : PathStr) : List Nat :=
  match fsFind fs p with
  | some (Entry.file c) => c
  | _ => []

/-- Models `os.path.getsize` on the paths the handler queries (directories,
whose platform-dependent size is never served, are modelled as 0). -/
def pathSize (fs : Fs) (p : PathStr) : Nat := (fileContent fs p).length

/-- The `unity_types` dict of `UnityWebGLHandler.guess_type`, in its literal
declaration (= iteration) order. -/
def unityTypes : List (PathStr × String) :=
  [ (".unityweb".toList, "application/octet-stream"),
    (".wasm".toList, "application/wasm"),
    (".wasm.gz".toList, "application/wasm"),
    (".wasm.br".toList, "application/wasm"),
    (".js.gz".toList, "application/javascript"),
    (".js.br".toList, "application/javascript"),
    (".data".toList, "application/octet-stream"),
    (".data.gz".toList, "application/octet-stream"),
    (".data.br".toList, "application/octet-stream"),
    (".symbols.json".toList, "application/json"),
    (".symbols.json.gz".toList, "application/json"),
    (".symbols.json.br".toList, "application/json") ]

/-- The `for ext, mime_type in unity_types.items(): if path_lower.endswith(ext)`
scan: first table entry whose key is a suffix of the (lowercased) path. -/
def firstMatchMime (table : List (PathStr × String)) (q : PathStr) : Option String :=
  match table with
  | [] => none
  | (ext, mt) :: rest => if endsWithS q ext then some mt else firstMatchMime rest q

/-- First value bound to key `k` in a table. -/
def lookupMime (table : List (PathStr × String)) (k : PathStr) : Option String :=
  match table with
  | [] => none
  | (ext, mt) :: rest => if ext = k then some mt else lookupMime rest k

/-- `posixpath.splitext(path)[1]`: the extension of the final path component
(leading dots of the component do not start an extension). -/
def splitextExt (p : PathStr) : PathStr :=
  let base := (splitOnChar '/' p).getLastD []
  let lead := base.takeWhile (· = '.')
  let rest := base.drop lead.length
  if rest.contains '.' then '.' :: (rest.reverse.takeWhile (· ≠ '.')).reverse
  else []

/-- The `extensions_map` of the standard library's `SimpleHTTPRequestHandler`. -/
def baseExtensionsMap : List (PathStr × String) :=
  [ (".gz".toList, "application/gzip"),
    (".Z".toList, "application/octet-stream"),
    (".bz2".toList, "application/x-bzip2"),
    (".xz".toList, "application/x-xz") ]

/-- A representative subset of the system MIME table consulted by
`mimetypes.guess_type` (keyed by lowercased extension). -/
def mimetypesTable : List (PathStr × String) :=
  [ (".html".toList, "text/html"),
    (".htm".toList, "text/html"),
    (".js".toList, "text/javascript"),
    (".mjs".toList, "text/javascript"),
    (".json".toList, "application/json"),
    (".css".toList, "text/css"),
    (".txt".toList, "text/plain"),
    (".png".toList, "image/png"),
    (".jpg".toList, "image/jpeg"),
    (".svg".toList, "image/svg+xml"),
    (".wasm".toList, "application/wasm"),
    (".pdf".toList, "application/pdf") ]

/-- Models the standard library's `SimpleHTTPRequestHandler.guess_type` (the
fallback the override delegates to): `extensions_map` lookup of the
`splitext` extension, a case-insensitive retry, then the system MIME table,
then `application/octet-stream`. -/
def baseGuessType (path : PathStr) : String :=
  let ext := splitextExt path
  match lookupMime baseExtensionsMap ext with
  | some t => t
  | none =>
    match lookupMime baseExtensionsMap (lowerS ext) with
    | some t => t
    | none =>
      match lookupMime mimetypesTable (lowerS ext) with
      | some t => t
      | none => "application/octet-stream"

/-- Models `UnityWebGLHandler.guess_type`: scan `unity_types` against the
lowercased path, else fall back to the base class. -/
def guessType (path : PathStr) : String :=
  match firstMatchMime unityTypes (lowerS path) with
  | some mt => mt
  | none => baseGuessType path

/-- The five fixed headers `UnityWebGLHandler.end_headers` adds to every
response. -/
def corsHeaders : List (String × String) :=
  [ ("Access-Control-Allow-Origin", "*"),
    ("Access-Control-Allow-Methods", "GET, OPTIONS"),
    ("Access-Control-Allow-Headers", "Content-Type"),
    ("Cross-Origin-Opener-Policy", "same-origin"),
    ("Cross-Origin-Embedder-Policy", "require-corp") ]

/-- Models `UnityWebGLHandler.end_headers`: every header block is terminated
by appending the five fixed CORS/COOP/COEP headers. -/
def endHeaders (hs : List (String × String)) : List (String × String) :=
  hs ++ corsHeaders

/-- An HTTP response as seen on the wire: status code, header list, optional
body.  Time-dependent headers (`Date`, `Server`, `Last-Modified`) are not
modelled. -/
structure HttpResponse where
  status : Nat
  headers : List (String × String)
  body : Option (List Nat)
deriving DecidableEq, Repr

/-- Bytes of a string (for modelled error/listing bodies). -/
def strBytes (s : String) : List Nat := s.toList.map Char.toNat

/-- Models `BaseHTTPRequestHandler.send_error`: an error status with a
`text/html` explanation body, suppressed for `HEAD` requests and bodyless
status codes.  (The body is modelled as a representative rendering of the
error page.) -/
def sendError (method : String) (code : Nat) (message : String) : HttpResponse :=
  let body := strBytes ("Error response: " ++ toString code ++ " " ++ message)
  let hasBody := ¬ method = "HEAD" ∧ 200 ≤ code ∧ ¬ code = 204 ∧ ¬ code = 205 ∧ ¬ code = 304
  { status := code
    headers := endHeaders
      [ ("Connection", "close"),
        ("Content-Type", "text/html;charset=utf-8"),
        ("Content-Length", toString body.length) ]
    body := if hasBody then some body else none }

/-- What `send_head` produces: the response emitted so far (for errors and
redirects the body is already written) and the opened file's bytes, which
`do_GET` streams and `do_HEAD` discards. -/
structure HeadResult where
  resp : HttpResponse
  fileData : Option (List Nat)
deriving DecidableEq, Repr

/-- The name under which a filesystem entry appears in a directory listing
of `base`: entries directly under `base` contribute their final component,
everything else contributes nothing. -/
def listEntryName (base : PathStr) (ke : PathStr × Entry) : Option String :=
  if (base ++ ['/']).isPrefixOf ke.1 then
    (if ¬ ke.1.drop (base.length + 1) = []
        ∧ ¬ (ke.1.drop (base.length + 1)).contains '/' then
      some (String.mk (ke.1.drop (base.length + 1)))
    else none)
  else none

/-- Models `SimpleHTTPRequestHandler.list_directory`: a 200 `text/html`
response whose body (streamed like a file) is rendered from the names of the
entries directly under the directory, in filesystem order. -/
def listDirectoryBody (fs : Fs) (p : PathStr) : List Nat :=
  strBytes ("Directory listing for " ++ String.mk (stripTrailingSlash p) ++ ": "
    ++ String.intercalate ", " (fs.filterMap (listEntryName (stripTrailingSlash p))))

/-- The file-serving tail of the base class's `send_head`: compute the type,
reject trailing-slash paths, open the file (missing paths and directories
raise `OSError`, answered with 404), and emit 200 with type and length. -/
def serveFile (fs : Fs) (method : String) (path : PathStr) : HeadResult :=
  let ctype := guessType path
  if endsWithS path ['/'] then
    { resp := sendError method 404 "File not found", fileData := none }
  else
    match fsFind fs path with
    | some (Entry.file content) =>
      { resp :=
          { status := 200
            headers := endHeaders
              [ ("Content-type", ctype),
                ("Content-Length", toString content.length) ]
            body := none }
        fileData := some content }
    | _ => { resp := sendError method 404 "File not found", fileData := none }

/-- Models the standard library's `SimpleHTTPRequestHandler.send_head` (the
path taken when the override falls through): directories redirect when the
request path lacks a trailing slash, else serve `index.html` / `index.htm`
or a generated listing; other paths are served as files.  Conditional
requests (`If-Modified-Since`) are not modelled: modelled requests carry no
conditional headers.  The redirect's `Location` reassembly of query and
fragment is elided. -/
def baseSendHead (fs : Fs) (directory : PathStr) (method : String)
    (rawPath : PathStr) : HeadResult :=
  let path := translatePath directory rawPath
  if pathIsDir fs path then
    let partsPath := takeUntil '#' (takeUntil '?' rawPath)
    if ¬ endsWithS partsPath ['/'] then
      { resp :=
          { status := 301
            headers := endHeaders
              [ ("Location", String.mk (partsPath ++ ['/'])),
                ("Content-Length", "0") ]
            body := none }
        fileData := none }
    else
      let idx1 := osJoin path "index.html".toList
      let idx2 := osJoin path "index.htm".toList
      if pathIsFile fs idx1 then serveFile fs method idx1
      else if pathIsFile fs idx2 then serveFile fs method idx2
      else
        let body := listDirectoryBody fs path
        { resp :=
            { status := 200
              headers := endHeaders
                [ ("Content-type", "text/html; charset=utf-8"),
                  ("Content-Length", toString body.length) ]
              body := none }
          fileData := some body }
  else serveFile fs method path

/-- Models `UnityWebGLHandler.send_head`: an existing path ending in `.gz`
(resp. `.br`) gets an explicit 200 with `Content-Encoding: gzip` (resp.
`br`), `Content-Type` from `guess_type` and the on-disk length; everything
else falls through to the base class.  (Opening a directory whose name ends
in `.gz`/`.br` raises after the headers are flushed; modelled as the headers
with no streamed data.) -/
def sendHead (fs : Fs) (directory : PathStr) (method : String)
    (rawPath : PathStr) : HeadResult :=
  let path := translatePath directory rawPath
  if pathExists fs path then
    if endsWithS path ".gz".toList then
      { resp :=
          { status := 200
            headers := endHeaders
              [ ("Content-Encoding", "gzip"),
                ("Content-Type", guessType path),
                ("Content-Length", toString (pathSize fs path)) ]
            body := none }
        fileData :=
          match fsFind fs path with
          | some (Entry.file c) => some c
          | _ => none }
    else if endsWithS path ".br".toList then
      { resp :=
          { status := 200
            headers := endHeaders
              [ ("Content-Encoding", "br"),
                ("Content-Type", guessType path),
                ("Content-Length", toString (pathSize fs path)) ]
            body := none }
        fileData :=
          match fsFind fs path with
          | some (Entry.file c) => some c
          | _ => none }
    else baseSendHead fs directory method rawPath
  else baseSendHead fs directory method rawPath

/-- Models `do_GET` (the `UnityWebGLHandler.do_GET` override only sets an
attribute that is never read, then delegates to the base class): emit the
head and stream the opened file, if any. -/
def doGET (fs : Fs) (directory : PathStr) (rawPath : PathStr) : HttpResponse :=
  let h := sendHead fs directory "GET" rawPath
  match h.fileData with
  | some d => { h.resp with body := some d }
  | none => h.resp

/-- Models `SimpleHTTPRequestHandler.do_HEAD`: emit the head and close the
file without streaming it. -/
def doHEAD (fs : Fs) (directory : PathStr) (rawPath : PathStr) : HttpResponse :=
  (sendHead fs directory "HEAD" rawPath).resp

/-- Models `BaseHTTPRequestHandler` request dispatch: look up a
`do_<METHOD>` attribute; only `do_GET` and `do_HEAD` exist on the handler,
every other method is answered with `501 Unsupported method`. -/
def handleRequest (fs : Fs) (directory : PathStr) (method : String)
    (rawPath : PathStr) : HttpResponse :=
  if method = "GET" then doGET fs directory rawPath
  else if method = "HEAD" then doHEAD fs directory rawPath
  else sendError method 501 ("Unsupported method: " ++ method)

/-- Values of all headers whose name matches `name` (HTTP header names are
case-insensitive). -/
def headerValuesAux (name : String) : List (String × String) → List String
  | [] => []
  | (n, v) :: rest =>
    if lowerS n.toList = lowerS name.toList then v :: headerValuesAux name rest
    else headerValuesAux name rest

/-- Values carried by a response for the (case-insensitive) header `name`. -/
def headerValues (r : HttpResponse) (name : String) : List String :=
  headerValuesAux name r.headers

/-- `k` lies at or under the root `dir`. -/
def underRootB (dir k : PathStr) : Bool :=
  k = dir || (dir ++ ['/']).isPrefixOf k

/-- The part of a filesystem at or under the root. -/
def restrictRoot (dir : PathStr) (fs : Fs) : Fs :=
  fs.filter (fun ke => underRootB dir ke.1)

/-- Modelled from the spec: the table lookup as §3/§4.1 word it — among the
table entries whose suffix matches the path, the longest (most specific)
suffix decides.  Used only to compare against the code's first-match scan. -/
def longestMatch (table : List (PathStr × String)) (q : PathStr) : Option String :=
  ((table.filter (fun em => endsWithS q em.1)).foldl (fun best em =>
    match best with
    | none => some em
    | some b => if b.1.length < em.1.length then some em else best) none).map Prod.snd

/-- No key of the table is a suffix of another (distinct) key. -/
def noSuffixPairs : List (PathStr × String) → Bool
  | [] => true
  | (e, _) :: rest =>
    rest.all (fun em => !(e.isSuffixOf em.1) && !(em.1.isSuffixOf e)) && noSuffixPairs rest

/-- Modelled from the spec (§4.1 step 1): resolution of the request path
against the root "normalizing `..` segments", escaping when a `..` pops past
the root.  Used only to state which requests the spec deems traversals. -/
def specEscapesAux (stack : List PathStr) : List PathStr → Bool
  | [] => false
  | w :: ws =>
    if w = [] ∨ w = ['.'] then specEscapesAux stack ws
    else if w = ['.', '.'] then
      match stack with
      | [] => true
      | _ :: rest => specEscapesAux rest ws
    else specEscapesAux (w :: stack) ws

/-- Modelled from the spec: the request path's `..` segments, resolved
against the root, escape it. -/
def specEscapes (rawPath : PathStr) : Bool :=
  specEscapesAux [] (splitOnChar '/' (takeUntil '#' (takeUntil '?' rawPath)))

/-- A well-formed root directory: nonempty, no trailing slash (as the
defaults `"Build"` and any normal CLI argument are). -/
def dirOk (dir : PathStr) : Prop :=
  ¬ dir = [] ∧ endsWithS dir ['/'] = false

/-- A relative-path component that resolution passes through unchanged:
nonempty, no separator, no query/fragment marker, not `.` or `..`, and no
whitespace (whitespace interacts with the `rstrip` in `translate_path`). -/
def simpleSeg (w : PathStr) : Bool :=
  decide (¬ w = []) && !(w.contains '/') && !(w.contains '?') && !(w.contains '#')
    && decide (¬ w = ['.']) && decide (¬ w = ['.', '.']) && !(w.any Char.isWhitespace)

/-- The on-disk path of the entry under `dir` with relative components
`segs`. -/
def relPath (dir : PathStr) (segs : List PathStr) : PathStr :=
  segs.foldl (fun acc w => acc ++ '/' :: w) dir

/-! ### Helper lemmas: suffix tests -/

theorem endsWithS_iff {s t : PathStr} : endsWithS s t = true ↔ t <:+ s := by
  simp [endsWithS]

theorem endsWith_eq_of_length {s a b : PathStr} (ha : endsWithS s a = true)
    (hb : endsWithS s b = true) (hl : a.length = b.length) : a = b := by
  rw [endsWithS_iff] at ha hb
  rcases List.suffix_or_suffix_of_suffix ha hb with h | h
  · exact h.eq_of_length hl
  · exact (h.eq_of_length hl.symm).symm

/-! ### Helper lemmas: header lookup -/

theorem headerValuesAux_cons_eq (name n : String)
    (h : lowerS n.data = lowerS name.data)
    (v : String) (rest : List (String × String)) :
    headerValuesAux name ((n, v) :: rest) = v :: headerValuesAux name rest := by
  simp [headerValuesAux, h]

theorem headerValuesAux_cons_ne (name n : String)
    (h : ¬ lowerS n.data = lowerS name.data)
    (v : String) (rest : List (String × String)) :
    headerValuesAux name ((n, v) :: rest) = headerValuesAux name rest := by
  simp [headerValuesAux, h]

theorem headerValuesAux_cors_ct :
    headerValuesAux "Content-Type" corsHeaders = [] := by decide

theorem headerValuesAux_cors_ce :
    headerValuesAux "Content-Encoding" corsHeaders = [] := by decide

/-- `Content-Type` lookup on the override branches' header block. -/
theorem hvCT_enc (enc ct cl : String) :
    headerValuesAux "Content-Type"
      (endHeaders [("Content-Encoding", enc), ("Content-Type", ct),
        ("Content-Length", cl)]) = [ct] := by
  simp only [endHeaders, List.cons_append, List.nil_append]
  rw [headerValuesAux_cons_ne _ _ (by decide), headerValuesAux_cons_eq _ _ (by decide),
    headerValuesAux_cons_ne _ _ (by decide), headerValuesAux_cors_ct]

/-- `Content-Encoding` lookup on the override branches' header block. -/
theorem hvCE_enc (enc ct cl : String) :
    headerValuesAux "Content-Encoding"
      (endHeaders [("Content-Encoding", enc), ("Content-Type", ct),
        ("Content-Length", cl)]) = [enc] := by
  simp only [endHeaders, List.cons_append, List.nil_append]
  rw [headerValuesAux_cons_eq _ _ (by decide), headerValuesAux_cons_ne _ _ (by decide),
    headerValuesAux_cons_ne _ _ (by decide), headerValuesAux_cors_ce]

/-- `Content-Type` lookup on the base branch's header block. -/
theorem hvCT_plain (ct cl : String) :
    headerValuesAux "Content-Type"
      (endHeaders [("Content-type", ct), ("Content-Length", cl)]) = [ct] := by
  simp only [endHeaders, List.cons_append, List.nil_append]
  rw [headerValuesAux_cons_eq _ _ (by decide), headerValuesAux_cons_ne _ _ (by decide),
    headerValuesAux_cors_ct]

/-- `Content-Encoding` lookup on the base branch's header block. -/
theorem hvCE_plain (ct cl : String) :
    headerValuesAux "Content-Encoding"
      (endHeaders [("Content-type", ct), ("Content-Length", cl)]) = [] := by
  simp only [endHeaders, List.cons_append, List.nil_append]
  rw [headerValuesAux_cons_ne _ _ (by decide), headerValuesAux_cons_ne _ _ (by decide),
    headerValuesAux_cors_ce]

/-! ### Helper lemmas: filesystem predicates -/

theorem pathIsFile_elim {fs : Fs} {p : PathStr} (h : pathIsFile fs p = true) :
    endsWithS p ['/'] = false ∧ ∃ c, fsFind fs p = some (Entry.file c) := by
  unfold pathIsFile at h
  cases hB : endsWithS p ['/'] with
  | true => rw [hB] at h; simp at h
  | false =>
    rw [hB] at h
    simp only [Bool.false_eq_true, if_false] at h
    refine ⟨rfl, ?_⟩
    cases hf : fsFind fs p with
    | none => rw [hf] at h; simp at h
    | some e =>
      cases e with
      | file c => exact ⟨c, rfl⟩
      | dir => rw [hf] at h; simp at h

theorem pathExists_of_file {fs : Fs} {p : PathStr} {c : List Nat}
    (hf : fsFind fs p = some (Entry.file c)) (hns : endsWithS p ['/'] = false) :
    pathExists fs p = true := by
  simp [pathExists, hns, hf]

theorem pathIsDir_of_file {fs : Fs} {p : PathStr} {c : List Nat}
    (hf : fsFind fs p = some (Entry.file c)) (hns : endsWithS p ['/'] = false) :
    pathIsDir fs p = false := by
  simp [pathIsDir, stripTrailingSlash, hns, hf]

/-! ### Helper lemmas: the MIME override table -/

theorem firstMatch_of_mem {t : List (PathStr × String)} {q ext : PathStr} {mt : String}
    (hns : noSuffixPairs t = true) (hmem : (ext, mt) ∈ t)
    (hq : endsWithS q ext = true) : firstMatchMime t q = some mt := by
  induction t with
  | nil => simp at hmem
  | cons em rest ih =>
    obtain ⟨e, m⟩ := em
    unfold noSuffixPairs at hns
    rw [Bool.and_eq_true] at hns
    obtain ⟨hall, hrest⟩ := hns
    rcases List.mem_cons.mp hmem with heq | hmem'
    · rw [Prod.mk.injEq] at heq
      obtain ⟨rfl, rfl⟩ := heq
      unfold firstMatchMime
      rw [if_pos hq]
    · cases hqe : endsWithS q e with
      | false =>
        unfold firstMatchMime
        rw [if_neg (by simp [hqe])]
        exact ih hrest hmem'
      | true =>
        exfalso
        have hcmp := List.suffix_or_suffix_of_suffix (endsWithS_iff.mp hqe)
          (endsWithS_iff.mp hq)
        have hpair := List.all_eq_true.mp hall (ext, mt) hmem'
        rw [Bool.and_eq_true, Bool.not_eq_true', Bool.not_eq_true'] at hpair
        obtain ⟨h1, h2⟩ := hpair
        rcases hcmp with h | h
        · exact absurd (List.isSuffixOf_iff_suffix.mpr h) (by simp [h1])
        · exact absurd (List.isSuffixOf_iff_suffix.mpr h) (by simp [h2])

theorem guessType_table {path ext : PathStr} {mt : String}
    (hmem : (ext, mt) ∈ unityTypes)
    (hlow : endsWithS (lowerS path) ext = true) : guessType path = mt := by
  unfold guessType
  rw [firstMatch_of_mem (by decide) hmem hlow]

/-! ### Helper lemmas: response shape -/

theorem sendError_headers (m : String) (code : Nat) (msg : String) :
    corsHeaders <:+ (sendError m code msg).headers := by
  unfold sendError endHeaders
  dsimp only
  exact List.suffix_append _ _

theorem serveFile_headers (fs : Fs) (m : String) (p : PathStr) :
    corsHeaders <:+ (serveFile fs m p).resp.headers := by
  unfold serveFile
  dsimp only
  repeat' split
  all_goals first
    | exact sendError_headers m 404 "File not found"
    | (unfold endHeaders; exact List.suffix_append _ _)

theorem baseSendHead_headers (fs : Fs) (dir : PathStr) (m : String) (raw : PathStr) :
    corsHeaders <:+ (baseSendHead fs dir m raw).resp.headers := by
  unfold baseSendHead
  dsimp only
  repeat' split
  all_goals first
    | (unfold endHeaders; exact List.suffix_append _ _)
    | exact serveFile_headers fs m _

theorem sendHead_resp_headers (fs : Fs) (dir : PathStr) (m : String) (raw : PathStr) :
    corsHeaders <:+ (sendHead fs dir m raw).resp.headers := by
  unfold sendHead
  dsimp only
  repeat' split
  all_goals first
    | (unfold endHeaders; exact List.suffix_append _ _)
    | exact baseSendHead_headers fs dir m raw

theorem serveFile_status (fs : Fs) (m : String) (p : PathStr) :
    (serveFile fs m p).resp.status ∈ ([200, 301, 404, 501] : List Nat) := by
  unfold serveFile sendError
  dsimp only
  repeat' split
  all_goals simp

theorem baseSendHead_status (fs : Fs) (dir : PathStr) (m : String) (raw : PathStr) :
    (baseSendHead fs dir m raw).resp.status ∈ ([200, 301, 404, 501] : List Nat) := by
  unfold baseSendHead
  dsimp only
  repeat' split
  all_goals first
    | exact serveFile_status fs m _
    | simp

theorem sendHead_resp_status_mem (fs : Fs) (dir : PathStr) (m : String) (raw : PathStr) :
    (sendHead fs dir m raw).resp.status ∈ ([200, 301, 404, 501] : List Nat) := by
  unfold sendHead
  dsimp only
  repeat' split
  all_goals first
    | exact baseSendHead_status fs dir m raw
    | simp

theorem doGET_resp (fs : Fs) (dir : PathStr) (raw : PathStr) :
    (doGET fs dir raw).status = (sendHead fs dir "GET" raw).resp.status ∧
    (doGET fs dir raw).headers = (sendHead fs dir "GET" raw).resp.headers := by
  unfold doGET
  dsimp only
  cases (sendHead fs dir "GET" raw).fileData <;> simp

theorem handleRequest_headers (fs : Fs) (dir : PathStr) (m : String) (raw : PathStr) :
    corsHeaders <:+ (handleRequest fs dir m raw).headers := by
  unfold handleRequest
  split
  · rw [(doGET_resp fs dir raw).2]; exact sendHead_resp_headers fs dir "GET" raw
  split
  · exact sendHead_resp_headers fs dir "HEAD" raw
  · unfold sendError endHeaders
    dsimp only
    exact List.suffix_append _ _

theorem handleRequest_status_mem (fs : Fs) (dir : PathStr) (m : String) (raw : PathStr) :
    (handleRequest fs dir m raw).status ∈ ([200, 301, 404, 501] : List Nat) := by
  unfold handleRequest
  split
  · rw [(doGET_resp fs dir raw).1]; exact sendHead_resp_status_mem fs dir "GET" raw
  split
  · exact sendHead_resp_status_mem fs dir "HEAD" raw
  · simp [sendError]

/-- C1: every request, whatever its method, path and outcome, is answered
with all five fixed CORS/COOP/COEP headers with exactly the configured
values. -/
theorem cors_headers_on_every_response (fs : Fs) (dir : PathStr) (method : String)
    (raw : PathStr) :
    ("Access-Control-Allow-Origin", "*") ∈ (handleRequest fs dir method raw).headers ∧
    ("Access-Control-Allow-Methods", "GET, OPTIONS") ∈ (handleRequest fs dir method raw).headers ∧
    ("Access-Control-Allow-Headers", "Content-Type") ∈ (handleRequest fs dir method raw).headers ∧
    ("Cross-Origin-Opener-Policy", "same-origin") ∈ (handleRequest fs dir method raw).headers ∧
    ("Cross-Origin-Embedder-Policy", "require-corp") ∈ (handleRequest fs dir method raw).headers := by
  have hsuf := handleRequest_headers fs dir method raw
  refine ⟨?_, ?_, ?_, ?_, ?_⟩ <;>
    exact List.IsSuffix.mem (by simp [corsHeaders]) hsuf

/-- C5: the claim says an OPTIONS request is answered 200 with no body; the
handler defines no `do_OPTIONS`, so the inherited dispatch answers
`501 Unsupported method` with an error body (the CORS headers are present,
as claimed).  Evaluation of the model at the failing input. -/
theorem options_request_gets_501 :
    (handleRequest [] "Build".toList "OPTIONS" "/".toList).status = 501 ∧
    ¬ (handleRequest [] "Build".toList "OPTIONS" "/".toList).body = none ∧
    ("Access-Control-Allow-Origin", "*")
      ∈ (handleRequest [] "Build".toList "OPTIONS" "/".toList).headers := by decide

/-- C6 counterexample: a POST request (not GET/HEAD/OPTIONS) is answered
501, not the claimed 405. -/
theorem method_not_allowed_counterexample :
    ¬ (handleRequest [] "Build".toList "POST" "/".toList).status = 405 ∧
    (handleRequest [] "Build".toList "POST" "/".toList).status = 501 := by decide

/-- C6 (amended): every request whose method is not GET or HEAD (OPTIONS
included) fails with status 501 (Unsupported method), because only `do_GET`
and `do_HEAD` exist on the handler. -/
theorem non_get_head_method_501 (fs : Fs) (dir : PathStr) (method : String)
    (raw : PathStr) (hg : ¬ method = "GET") (hh : ¬ method = "HEAD") :
    (handleRequest fs dir method raw).status = 501 := by
  unfold handleRequest
  rw [if_neg hg, if_neg hh]
  rfl

theorem non_get_head_method_501_witness :
    (handleRequest [] "Build".toList "POST" "/".toList).status = 501 :=
  non_get_head_method_501 [] "Build".toList "POST" "/".toList
    (by decide) (by decide)

/-! ### C10: first-match equals longest-match on the override table -/

theorem firstMatchMime_eq_head_filter (t : List (PathStr × String)) (q : PathStr) :
    firstMatchMime t q = ((t.filter fun em => endsWithS q em.1).head?).map Prod.snd := by
  induction t with
  | nil => rfl
  | cons em rest ih =>
    obtain ⟨e, m⟩ := em
    unfold firstMatchMime
    cases hq : endsWithS q e with
    | true =>
      rw [if_pos rfl,
        @List.filter_cons_of_pos (PathStr × String) (fun em => endsWithS q em.1) (e, m) rest hq]
      rfl
    | false =>
      rw [if_neg (by simp),
        @List.filter_cons_of_neg (PathStr × String) (fun em => endsWithS q em.1) (e, m) rest (by simp [hq])]
      exact ih

theorem filter_matches_nil_or_single (t : List (PathStr × String)) (q : PathStr)
    (hns : noSuffixPairs t = true) :
    (t.filter fun em => endsWithS q em.1) = [] ∨
    ∃ em, (t.filter fun em => endsWithS q em.1) = [em] := by
  induction t with
  | nil => exact Or.inl rfl
  | cons em rest ih =>
    obtain ⟨e, m⟩ := em
    unfold noSuffixPairs at hns
    rw [Bool.and_eq_true] at hns
    obtain ⟨hall, hrest⟩ := hns
    cases hq : endsWithS q e with
    | false =>
      rw [@List.filter_cons_of_neg (PathStr × String) (fun em => endsWithS q em.1) (e, m) rest (by simp [hq])]
      exact ih hrest
    | true =>
      rw [@List.filter_cons_of_pos (PathStr × String) (fun em => endsWithS q em.1) (e, m) rest hq]
      right
      refine ⟨(e, m), ?_⟩
      have hnil : (rest.filter fun em => endsWithS q em.1) = [] := by
        rw [List.filter_eq_nil_iff]
        intro a ha hpa
        have hcmp := List.suffix_or_suffix_of_suffix (endsWithS_iff.mp hq)
          (endsWithS_iff.mp (by simpa using hpa))
        have hpair := List.all_eq_true.mp hall a ha
        rw [Bool.and_eq_true, Bool.not_eq_true', Bool.not_eq_true'] at hpair
        rcases hcmp with h | h
        · exact absurd (List.isSuffixOf_iff_suffix.mpr h) (by simp [hpair.1])
        · exact absurd (List.isSuffixOf_iff_suffix.mpr h) (by simp [hpair.2])
      rw [hnil]

/-- C10: scanning the override table first-match in declaration order gives,
for every input path, the same result as matching the longest applicable
suffix first, because no table key is a suffix of another table key. -/
theorem first_match_eq_longest_match :
    noSuffixPairs unityTypes = true ∧
    ∀ q : PathStr, firstMatchMime unityTypes q = longestMatch unityTypes q := by
  refine ⟨by decide, fun q => ?_⟩
  rw [firstMatchMime_eq_head_filter]
  unfold longestMatch
  rcases filter_matches_nil_or_single unityTypes q (by decide) with h | ⟨em, h⟩ <;>
    rw [h] <;> rfl

/-! ### Helper: how an existing regular file is served -/

theorem sendHead_file (fs : Fs) (dir raw : PathStr) (content : List Nat) (method : String)
    (hf : fsFind fs (translatePath dir raw) = some (Entry.file content))
    (hns : endsWithS (translatePath dir raw) ['/'] = false) :
    sendHead fs dir method raw =
      (if endsWithS (translatePath dir raw) ".gz".toList then
        { resp :=
            { status := 200
              headers := endHeaders
                [ ("Content-Encoding", "gzip"),
                  ("Content-Type", guessType (translatePath dir raw)),
                  ("Content-Length", toString content.length) ]
              body := none }
          fileData := some content }
      else if endsWithS (translatePath dir raw) ".br".toList then
        { resp :=
            { status := 200
              headers := endHeaders
                [ ("Content-Encoding", "br"),
                  ("Content-Type", guessType (translatePath dir raw)),
                  ("Content-Length", toString content.length) ]
              body := none }
          fileData := some content }
      else
        { resp :=
            { status := 200
              headers := endHeaders
                [ ("Content-type", guessType (translatePath dir raw)),
                  ("Content-Length", toString content.length) ]
              body := none }
          fileData := some content }) := by
  have hex : pathExists fs (translatePath dir raw) = true := pathExists_of_file hf hns
  have hnd : pathIsDir fs (translatePath dir raw) = false := pathIsDir_of_file hf hns
  unfold sendHead
  dsimp only
  rw [if_pos hex]
  by_cases hgz : endsWithS (translatePath dir raw) ".gz".toList = true
  · rw [if_pos hgz, if_pos hgz]
    simp [pathSize, fileContent, hf]
  · rw [if_neg hgz, if_neg hgz]
    by_cases hbr : endsWithS (translatePath dir raw) ".br".toList = true
    · rw [if_pos hbr, if_pos hbr]
      simp [pathSize, fileContent, hf]
    · rw [if_neg hbr, if_neg hbr]
      unfold baseSendHead
      dsimp only
      rw [if_neg (by simp [hnd])]
      unfold serveFile
      dsimp only
      rw [if_neg (by simp [hns]), hf]

theorem file_response_facts (fs : Fs) (dir raw : PathStr) (content : List Nat)
    (hf : fsFind fs (translatePath dir raw) = some (Entry.file content))
    (hns : endsWithS (translatePath dir raw) ['/'] = false) :
    (handleRequest fs dir "GET" raw).status = 200 ∧
    (handleRequest fs dir "GET" raw).body = some content ∧
    headerValues (handleRequest fs dir "GET" raw) "Content-Type"
      = [guessType (translatePath dir raw)] ∧
    (endsWithS (translatePath dir raw) ".gz".toList = true →
      headerValues (handleRequest fs dir "GET" raw) "Content-Encoding" = ["gzip"]) ∧
    (endsWithS (translatePath dir raw) ".gz".toList = false →
      endsWithS (translatePath dir raw) ".br".toList = true →
      headerValues (handleRequest fs dir "GET" raw) "Content-Encoding" = ["br"]) ∧
    (endsWithS (translatePath dir raw) ".gz".toList = false →
      endsWithS (translatePath dir raw) ".br".toList = false →
      headerValues (handleRequest fs dir "GET" raw) "Content-Encoding" = []) := by
  have hsh := sendHead_file fs dir raw content "GET" hf hns
  unfold headerValues
  have hget : handleRequest fs dir "GET" raw = doGET fs dir raw := by
    unfold handleRequest
    rw [if_pos rfl]
  rw [hget]
  unfold doGET
  dsimp only
  rw [hsh]
  by_cases hgz : endsWithS (translatePath dir raw) ".gz".toList = true
  · rw [if_pos hgz]
    dsimp only
    refine ⟨rfl, rfl, ?_, fun _ => ?_,
      fun h _ => absurd (h ▸ hgz) Bool.false_ne_true,
      fun h _ => absurd (h ▸ hgz) Bool.false_ne_true⟩
    · exact hvCT_enc "gzip" _ _
    · exact hvCE_enc "gzip" _ _
  · rw [if_neg hgz]
    have hgz' : endsWithS (translatePath dir raw) ".gz".toList = false :=
      Bool.eq_false_iff.mpr hgz
    by_cases hbr : endsWithS (translatePath dir raw) ".br".toList = true
    · rw [if_pos hbr]
      dsimp only
      refine ⟨rfl, rfl, ?_, fun h => absurd (hgz' ▸ h) Bool.false_ne_true,
        fun _ _ => ?_, fun _ h => absurd (h ▸ hbr) Bool.false_ne_true⟩
      · exact hvCT_enc "br" _ _
      · exact hvCE_enc "br" _ _
    · rw [if_neg hbr]
      dsimp only
      refine ⟨rfl, rfl, ?_, fun h => absurd (hgz' ▸ h) Bool.false_ne_true,
        fun _ h => absurd h hbr, fun _ _ => ?_⟩
      · exact hvCT_plain _ _
      · exact hvCE_plain _ _

/-- C2: for every GET of an existing file whose (lowercased) resolved path
ends with a suffix in the override table, the `Content-Type` is exactly the
table's MIME type (the table key being — by C10 — the unique, hence longest,
matching suffix). -/
theorem content_type_from_override_table (fs : Fs) (dir raw ext : PathStr) (mt : String)
    (hmem : (ext, mt) ∈ unityTypes)
    (hlow : endsWithS (lowerS (translatePath dir raw)) ext = true)
    (hfile : pathIsFile fs (translatePath dir raw) = true) :
    (handleRequest fs dir "GET" raw).status = 200 ∧
    headerValues (handleRequest fs dir "GET" raw) "Content-Type" = [mt] := by
  obtain ⟨hns, content, hf⟩ := pathIsFile_elim hfile
  have hfacts := file_response_facts fs dir raw content hf hns
  exact ⟨hfacts.1, by rw [hfacts.2.2.1, guessType_table hmem hlow]⟩

theorem content_type_from_override_table_witness :
    (handleRequest [("Build/x.symbols.json.br".toList, Entry.file [3, 4])]
        "Build".toList "GET" "/x.symbols.json.br".toList).status = 200 ∧
    headerValues (handleRequest [("Build/x.symbols.json.br".toList, Entry.file [3, 4])]
        "Build".toList "GET" "/x.symbols.json.br".toList) "Content-Type"
      = ["application/json"] :=
  content_type_from_override_table
    [("Build/x.symbols.json.br".toList, Entry.file [3, 4])]
    "Build".toList "/x.symbols.json.br".toList ".symbols.json.br".toList
    "application/json" (by decide) (by decide) (by decide)

/-- C3: for every GET of an existing file, the response is 200 with
`Content-Type` from `guess_type`; a resolved path ending `.gz` carries
`Content-Encoding: gzip`, else one ending `.br` carries
`Content-Encoding: br`, and otherwise no `Content-Encoding` header is
present. -/
theorem content_encoding_by_suffix (fs : Fs) (dir raw : PathStr)
    (hfile : pathIsFile fs (translatePath dir raw) = true) :
    (handleRequest fs dir "GET" raw).status = 200 ∧
    headerValues (handleRequest fs dir "GET" raw) "Content-Type"
      = [guessType (translatePath dir raw)] ∧
    (endsWithS (translatePath dir raw) ".gz".toList = true →
      headerValues (handleRequest fs dir "GET" raw) "Content-Encoding" = ["gzip"]) ∧
    (endsWithS (translatePath dir raw) ".gz".toList = false →
      endsWithS (translatePath dir raw) ".br".toList = true →
      headerValues (handleRequest fs dir "GET" raw) "Content-Encoding" = ["br"]) ∧
    (endsWithS (translatePath dir raw) ".gz".toList = false →
      endsWithS (translatePath dir raw) ".br".toList = false →
      headerValues (handleRequest fs dir "GET" raw) "Content-Encoding" = []) := by
  obtain ⟨hns, content, hf⟩ := pathIsFile_elim hfile
  have hfacts := file_response_facts fs dir raw content hf hns
  exact ⟨hfacts.1, hfacts.2.2.1, hfacts.2.2.2.1, hfacts.2.2.2.2.1, hfacts.2.2.2.2.2⟩

theorem content_encoding_by_suffix_witness :
    (handleRequest [("Build/x.js.gz".toList, Entry.file [1, 2, 3])]
        "Build".toList "GET" "/x.js.gz".toList).status = 200 ∧
    headerValues (handleRequest [("Build/x.js.gz".toList, Entry.file [1, 2, 3])]
        "Build".toList "GET" "/x.js.gz".toList) "Content-Encoding" = ["gzip"] ∧
    headerValues (handleRequest [("Build/x.js.gz".toList, Entry.file [1, 2, 3])]
        "Build".toList "GET" "/x.js.gz".toList) "Content-Type"
      = ["application/javascript"] := by
  have h := content_encoding_by_suffix [("Build/x.js.gz".toList, Entry.file [1, 2, 3])]
    "Build".toList "/x.js.gz".toList (by decide)
  exact ⟨h.1, h.2.2.1 (by decide), by rw [h.2.1]; decide⟩

/-! ### C9: case sensitivity split between type and encoding -/

theorem not_endsWith_of_endsWith_ne {p a b : PathStr} (ha : endsWithS p a = true)
    (hlen : a.length = b.length) (hne : ¬ a = b) : endsWithS p b = false := by
  cases hcon : endsWithS p b with
  | false => rfl
  | true => exact absurd (endsWith_eq_of_length ha hcon hlen) hne

/-- C9: the table lookup lowercases the path, but the `.gz`/`.br` encoding
check is case-sensitive: an existing file ending in uppercase `.GZ` or `.BR`
still gets the override MIME type while the `Content-Encoding` header is
omitted. -/
theorem uppercase_suffix_type_no_encoding (fs : Fs) (dir raw ext : PathStr) (mt : String)
    (hmem : (ext, mt) ∈ unityTypes)
    (hlow : endsWithS (lowerS (translatePath dir raw)) ext = true)
    (hfile : pathIsFile fs (translatePath dir raw) = true)
    (hup : endsWithS (translatePath dir raw) ".GZ".toList = true ∨
           endsWithS (translatePath dir raw) ".BR".toList = true) :
    (handleRequest fs dir "GET" raw).status = 200 ∧
    headerValues (handleRequest fs dir "GET" raw) "Content-Type" = [mt] ∧
    headerValues (handleRequest fs dir "GET" raw) "Content-Encoding" = [] := by
  obtain ⟨hns, content, hf⟩ := pathIsFile_elim hfile
  have hfacts := file_response_facts fs dir raw content hf hns
  have hgz : endsWithS (translatePath dir raw) ".gz".toList = false := by
    rcases hup with h | h
    · exact not_endsWith_of_endsWith_ne h (by decide) (by decide)
    · exact not_endsWith_of_endsWith_ne h (by decide) (by decide)
  have hbr : endsWithS (translatePath dir raw) ".br".toList = false := by
    rcases hup with h | h
    · exact not_endsWith_of_endsWith_ne h (by decide) (by decide)
    · exact not_endsWith_of_endsWith_ne h (by decide) (by decide)
  exact ⟨hfacts.1, by rw [hfacts.2.2.1, guessType_table hmem hlow],
    hfacts.2.2.2.2.2 hgz hbr⟩

theorem uppercase_suffix_type_no_encoding_witness :
    (handleRequest [("Build/x.wasm.GZ".toList, Entry.file [5])]
        "Build".toList "GET" "/x.wasm.GZ".toList).status = 200 ∧
    headerValues (handleRequest [("Build/x.wasm.GZ".toList, Entry.file [5])]
        "Build".toList "GET" "/x.wasm.GZ".toList) "Content-Type"
      = ["application/wasm"] ∧
    headerValues (handleRequest [("Build/x.wasm.GZ".toList, Entry.file [5])]
        "Build".toList "GET" "/x.wasm.GZ".toList) "Content-Encoding" = [] :=
  uppercase_suffix_type_no_encoding
    [("Build/x.wasm.GZ".toList, Entry.file [5])]
    "Build".toList "/x.wasm.GZ".toList ".wasm.gz".toList "application/wasm"
    (by decide) (by decide) (by decide) (Or.inl (by decide))

/-! ### Helper lemmas: character-list path arithmetic -/

theorem not_mem_of_contains_false {l : PathStr} {a : Char}
    (h : l.contains a = false) : ¬ a ∈ l := by
  intro hm
  have htrue : l.contains a = true := List.elem_iff.mpr hm
  rw [h] at htrue
  exact Bool.false_ne_true htrue

theorem contains_false_of_not_mem {l : PathStr} {a : Char}
    (h : ¬ a ∈ l) : l.contains a = false := by
  cases hc : l.contains a with
  | false => rfl
  | true => exact absurd (List.elem_iff.mp hc) h

theorem takeUntil_of_not_mem {c : Char} : ∀ {s : PathStr}, ¬ c ∈ s → takeUntil c s = s
  | [], _ => rfl
  | a :: t, h => by
    have ha : ¬ a = c := fun heq => h (heq ▸ List.mem_cons_self a t)
    have ht := takeUntil_of_not_mem (s := t) (fun hm => h (List.mem_cons_of_mem a hm))
    unfold takeUntil at ht ⊢
    rw [List.takeWhile_cons, if_pos (by simpa using ha), ht]

theorem endsWithS_single {s : PathStr} {c : Char} :
    endsWithS s [c] = true ↔ s.getLast? = some c := by
  rw [endsWithS_iff]
  constructor
  · rintro ⟨t, rfl⟩
    exact List.getLast?_concat t
  · intro h
    exact ⟨s.dropLast, List.dropLast_append_getLast? c h⟩

theorem rstrip_eq_self {s : PathStr} {c : Char} (h : s.getLast? = some c)
    (hw : c.isWhitespace = false) : rstrip s = s := by
  unfold rstrip
  cases hr : s.reverse with
  | nil =>
    rw [List.reverse_eq_nil_iff] at hr
    rw [hr] at h
    simp at h
  | cons a t =>
    have hh : s.reverse.head? = some a := by rw [hr]; rfl
    rw [List.head?_reverse] at hh
    rw [h] at hh
    obtain rfl : a = c := by injection hh with hh'; exact hh'.symm
    rw [List.dropWhile_cons, if_neg (by simp [hw])]
    rw [← hr, List.reverse_reverse]

theorem mem_intercalateChar {sep : Char} {a : Char} :
    ∀ {segs : List PathStr}, a ∈ intercalateChar sep segs →
      a = sep ∨ ∃ w ∈ segs, a ∈ w
  | [], h => by simp [intercalateChar] at h
  | [x], h => Or.inr ⟨x, List.mem_cons_self x [], h⟩
  | x :: y :: ys, h => by
    unfold intercalateChar at h
    rcases List.mem_append.mp h with hx | hrest
    · exact Or.inr ⟨x, List.mem_cons_self x (y :: ys), hx⟩
    · rcases List.mem_cons.mp hrest with rfl | hmem
      · exact Or.inl rfl
      · rcases @mem_intercalateChar sep a (y :: ys) hmem with hs | ⟨w, hw, haw⟩
        · exact Or.inl hs
        · exact Or.inr ⟨w, List.mem_cons_of_mem x hw, haw⟩

theorem intercalateChar_getLast_aux {sep : Char} :
    ∀ {segs : List PathStr}, segs ≠ [] → (∀ w ∈ segs, ¬ w = []) →
      ∃ c, (intercalateChar sep segs).getLast? = some c ∧ ∃ w ∈ segs, c ∈ w
  | [], hne, _ => absurd rfl hne
  | [x], _, hall => by
    cases hx : x.getLast? with
    | none =>
      rw [List.getLast?_eq_none_iff] at hx
      exact absurd hx (hall x (List.mem_cons_self x []))
    | some c =>
      exact ⟨c, hx, x, List.mem_cons_self x [], List.mem_of_getLast?_eq_some hx⟩
  | x :: y :: ys, _, hall => by
    obtain ⟨c, hc, w, hw, hcw⟩ := @intercalateChar_getLast_aux sep (y :: ys)
      (by simp) (fun v hv => hall v (List.mem_cons_of_mem x hv))
    refine ⟨c, ?_, w, List.mem_cons_of_mem x hw, hcw⟩
    show (x ++ sep :: intercalateChar sep (y :: ys)).getLast? = some c
    rw [List.getLast?_append]
    cases hi : intercalateChar sep (y :: ys) with
    | nil => rw [hi] at hc; simp at hc
    | cons z zs =>
      rw [hi] at hc
      rw [List.getLast?_cons_cons, hc]
      rfl

theorem intercalateChar_head? {sep : Char} {w : PathStr} {rest : List PathStr}
    (hw : ¬ w = []) : (intercalateChar sep (w :: rest)).head? = w.head? := by
  cases rest with
  | nil => rfl
  | cons y ys =>
    show (w ++ sep :: intercalateChar sep (y :: ys)).head? = w.head?
    rw [List.head?_append]
    cases hx : w.head? with
    | none =>
      rw [List.head?_eq_none_iff] at hx
      exact absurd hx hw
    | some a => rfl

theorem splitOnChar_of_not_mem {sep : Char} : ∀ {s : PathStr}, ¬ sep ∈ s →
    splitOnChar sep s = [s]
  | [], _ => rfl
  | c :: t, h => by
    have hc : ¬ c = sep := fun he => h (List.mem_cons.mpr (Or.inl he.symm))
    have ht := splitOnChar_of_not_mem (s := t) (fun hm => h (List.mem_cons_of_mem c hm))
    unfold splitOnChar
    rw [if_neg hc, ht]

theorem splitOnChar_append_cons (sep : Char) : ∀ (w t : PathStr), ¬ sep ∈ w →
    splitOnChar sep (w ++ sep :: t) = w :: splitOnChar sep t
  | [], t, _ => by
    show splitOnChar sep (sep :: t) = [] :: splitOnChar sep t
    simp only [splitOnChar]
    simp only [if_true]
  | c :: w', t, h => by
    have hc : ¬ c = sep := fun he => h (List.mem_cons.mpr (Or.inl he.symm))
    have ih := splitOnChar_append_cons sep w' t (fun hm => h (List.mem_cons_of_mem c hm))
    show splitOnChar sep (c :: (w' ++ sep :: t)) = (c :: w') :: splitOnChar sep t
    simp only [splitOnChar]
    rw [if_neg hc, ih]

theorem splitOnChar_intercalate (sep : Char) : ∀ (segs : List PathStr), segs ≠ [] →
    (∀ w ∈ segs, ¬ sep ∈ w) →
    splitOnChar sep (intercalateChar sep segs) = segs
  | [], h, _ => absurd rfl h
  | [x], _, hall => splitOnChar_of_not_mem (hall x (List.mem_cons_self x []))
  | x :: y :: ys, _, hall => by
    show splitOnChar sep (x ++ sep :: intercalateChar sep (y :: ys)) = _
    rw [splitOnChar_append_cons sep x _ (hall x (List.mem_cons_self x (y :: ys))),
      splitOnChar_intercalate sep (y :: ys) (by simp)
        (fun w hw => hall w (List.mem_cons_of_mem x hw))]

theorem normCompsFold_simple (n : Nat) : ∀ (ws : List PathStr) (acc : List PathStr),
    (∀ w ∈ ws, ¬ w = [] ∧ ¬ w = ['.'] ∧ ¬ w = ['.', '.']) →
    ws.foldl (fun acc comp =>
      if comp = [] ∨ comp = ['.'] then acc
      else if ¬ comp = ['.', '.'] ∨ (n = 0 ∧ acc = [])
          ∨ acc.getLast? = some ['.', '.'] then acc ++ [comp]
      else if ¬ acc = [] then acc.dropLast
      else acc) acc = acc ++ ws
  | [], acc, _ => by simp
  | w :: ws, acc, hall => by
    obtain ⟨h1, h2, h3⟩ := hall w (List.mem_cons_self w ws)
    rw [List.foldl_cons]
    rw [if_neg (by simp [h1, h2]), if_pos (Or.inl h3),
      normCompsFold_simple n ws (acc ++ [w])
        (fun v hv => hall v (List.mem_cons_of_mem w hv))]
    simp

theorem normComps_simple (n : Nat) (ws : List PathStr)
    (hall : ∀ w ∈ ws, ¬ w = [] ∧ ¬ w = ['.'] ∧ ¬ w = ['.', '.']) :
    normComps n ([] :: ws) = ws := by
  unfold normComps
  rw [List.foldl_cons]
  rw [if_pos (Or.inl rfl), normCompsFold_simple n ws [] hall]
  simp

theorem relPath_eq_append (dir : PathStr) : ∀ (segs : List PathStr), segs ≠ [] →
    relPath dir segs = dir ++ '/' :: intercalateChar '/' segs
  | [], h => absurd rfl h
  | [x], _ => rfl
  | x :: y :: ys, _ => by
    show relPath (dir ++ '/' :: x) (y :: ys)
      = dir ++ '/' :: (x ++ '/' :: intercalateChar '/' (y :: ys))
    rw [relPath_eq_append (dir ++ '/' :: x) (y :: ys) (by simp)]
    simp

theorem relPath_getLast (dir : PathStr) (segs : List PathStr) (hne : segs ≠ [])
    (hall : ∀ w ∈ segs, ¬ w = []) :
    ∃ c, (relPath dir segs).getLast? = some c ∧ ∃ w ∈ segs, c ∈ w := by
  obtain ⟨c, hc, w, hw, hcw⟩ := @intercalateChar_getLast_aux '/' segs hne hall
  refine ⟨c, ?_, w, hw, hcw⟩
  rw [relPath_eq_append dir segs hne, List.getLast?_append]
  cases hi : intercalateChar '/' segs with
  | nil => rw [hi] at hc; simp at hc
  | cons z zs =>
    rw [hi] at hc
    rw [List.getLast?_cons_cons, hc]
    rfl

theorem take_one_ne_slash {w : PathStr} (hne : ¬ w = []) (hcont : ¬ '/' ∈ w) :
    ¬ w.take 1 = ['/'] := by
  cases w with
  | nil => exact absurd rfl hne
  | cons c t =>
    intro h
    have hc : c = '/' := by simpa using h
    exact hcont (List.mem_cons.mpr (Or.inl hc.symm))

theorem simpleSeg_elim {w : PathStr} (h : simpleSeg w = true) :
    ¬ w = [] ∧ w.contains '/' = false ∧ w.contains '?' = false ∧
    w.contains '#' = false ∧ ¬ w = ['.'] ∧ ¬ w = ['.', '.'] ∧
    w.any Char.isWhitespace = false := by
  unfold simpleSeg at h
  repeat rw [Bool.and_eq_true] at h
  obtain ⟨⟨⟨⟨⟨⟨ha, hb⟩, hc⟩, hd⟩, he⟩, hf⟩, hg⟩ := h
  rw [Bool.not_eq_true'] at hb hc hd hg
  exact ⟨of_decide_eq_true ha, hb, hc, hd, of_decide_eq_true he,
    of_decide_eq_true hf, hg⟩

theorem translateFold_simple : ∀ (segs : List PathStr) (acc : PathStr),
    ¬ acc = [] → endsWithS acc ['/'] = false →
    (∀ w ∈ segs, simpleSeg w = true) →
    segs.foldl (fun acc word =>
      if word.contains '/' ∨ word = ['.'] ∨ word = ['.', '.'] then acc
      else osJoin acc word) acc = relPath acc segs
  | [], _, _, _, _ => rfl
  | w :: segs, acc, hne, hslash, hall => by
    obtain ⟨h1, h2, _, _, h5, h6, _⟩ := simpleSeg_elim (hall w (List.mem_cons_self w segs))
    rw [List.foldl_cons]
    have hcond : ¬ (w.contains '/' = true ∨ w = ['.'] ∨ w = ['.', '.']) := by
      rintro (h | h | h)
      · rw [h2] at h; exact Bool.false_ne_true h
      · exact h5 h
      · exact h6 h
    rw [if_neg hcond]
    have hj : osJoin acc w = acc ++ '/' :: w := by
      unfold osJoin
      rw [if_neg (take_one_ne_slash h1 (not_mem_of_contains_false h2)),
        if_neg ?_]
      rintro (h | h)
      · exact hne h
      · rw [hslash] at h; exact Bool.false_ne_true h
    rw [hj]
    have hlast : ∃ c, (acc ++ '/' :: w).getLast? = some c ∧ c ∈ w := by
      cases hw : w with
      | nil => exact absurd hw h1
      | cons z zs =>
        cases hz : (z :: zs).getLast? with
        | none => rw [List.getLast?_eq_none_iff] at hz; simp at hz
        | some c =>
          refine ⟨c, ?_, List.mem_of_getLast?_eq_some hz⟩
          rw [List.getLast?_append, List.getLast?_cons_cons, hz]
          rfl
    obtain ⟨c, hc, hcw⟩ := hlast
    have hslash' : endsWithS (acc ++ '/' :: w) ['/'] = false := by
      cases hcon : endsWithS (acc ++ '/' :: w) ['/'] with
      | false => rfl
      | true =>
        rw [endsWithS_single, hc] at hcon
        have : c = '/' := by injection hcon
        exact absurd (this ▸ hcw) (not_mem_of_contains_false h2)
    show _ = relPath (acc ++ '/' :: w) segs
    exact translateFold_simple segs (acc ++ '/' :: w) (by simp) hslash'
      (fun v hv => hall v (List.mem_cons_of_mem w hv))

theorem translatePath_relative (dir : PathStr) (segs : List PathStr)
    (h1 : ¬ dir = []) (h2 : endsWithS dir ['/'] = false)
    (hne : segs ≠ []) (hall : ∀ w ∈ segs, simpleSeg w = true) :
    translatePath dir ('/' :: intercalateChar '/' segs) = relPath dir segs := by
  have hnz : ∀ w ∈ segs, ¬ w = [] := fun w hw => (simpleSeg_elim (hall w hw)).1
  have hslash : ∀ w ∈ segs, ¬ '/' ∈ w := fun w hw =>
    not_mem_of_contains_false (simpleSeg_elim (hall w hw)).2.1
  obtain ⟨c, hlast, w₀, hw₀, hcw₀⟩ := @intercalateChar_getLast_aux '/' segs hne hnz
  have hinterne : intercalateChar '/' segs ≠ [] := by
    intro h0
    rw [h0] at hlast
    simp at hlast
  have hq : ¬ '?' ∈ ('/' :: intercalateChar '/' segs) := by
    intro hm
    rcases List.mem_cons.mp hm with he | hm'
    · exact absurd he (by decide)
    · rcases mem_intercalateChar hm' with he | ⟨w, hw, hmw⟩
      · exact absurd he (by decide)
      · exact not_mem_of_contains_false (simpleSeg_elim (hall w hw)).2.2.1 hmw
  have hh : ¬ '#' ∈ ('/' :: intercalateChar '/' segs) := by
    intro hm
    rcases List.mem_cons.mp hm with he | hm'
    · exact absurd he (by decide)
    · rcases mem_intercalateChar hm' with he | ⟨w, hw, hmw⟩
      · exact absurd he (by decide)
      · exact not_mem_of_contains_false (simpleSeg_elim (hall w hw)).2.2.2.1 hmw
  have hrawlast : ('/' :: intercalateChar '/' segs).getLast? = some c := by
    cases hi : intercalateChar '/' segs with
    | nil => exact absurd hi hinterne
    | cons z zs =>
      rw [hi] at hlast
      rw [List.getLast?_cons_cons]
      exact hlast
  have hcnw : c.isWhitespace = false := by
    cases hcw : c.isWhitespace with
    | false => rfl
    | true =>
      have hany := (simpleSeg_elim (hall w₀ hw₀)).2.2.2.2.2.2
      have htrue : w₀.any Char.isWhitespace = true := List.any_eq_true.mpr ⟨c, hcw₀, hcw⟩
      rw [hany] at htrue
      exact absurd htrue Bool.false_ne_true
  have hcns : ¬ c = '/' := fun he => hslash w₀ hw₀ (he ▸ hcw₀)
  have hrstrip : rstrip ('/' :: intercalateChar '/' segs)
      = '/' :: intercalateChar '/' segs := rstrip_eq_self hrawlast hcnw
  have hre : endsWithS ('/' :: intercalateChar '/' segs) ['/'] = false := by
    cases hcon : endsWithS ('/' :: intercalateChar '/' segs) ['/'] with
    | false => rfl
    | true =>
      rw [endsWithS_single, hrawlast] at hcon
      injection hcon with h'
      exact absurd h' hcns
  have hsplit : splitOnChar '/' ('/' :: intercalateChar '/' segs) = [] :: segs := by
    simp only [splitOnChar]
    simp only [if_true]
    rw [splitOnChar_intercalate '/' segs hne hslash]
  have hisc : initialSlashCount ('/' :: intercalateChar '/' segs) = 1 := by
    have hsecond : ∀ z zs, intercalateChar '/' segs = z :: zs → ¬ z = '/' := by
      intro z zs hi he
      cases hsegs : segs with
      | nil => exact hne hsegs
      | cons s₁ rest =>
        have hs₁ := simpleSeg_elim (hall s₁ (hsegs ▸ List.mem_cons_self s₁ rest))
        have hh1 : (intercalateChar '/' (s₁ :: rest)).head? = s₁.head? :=
          intercalateChar_head? hs₁.1
        rw [← hsegs, hi] at hh1
        have hzmem : z ∈ s₁ := by
          cases hs1 : s₁ with
          | nil => exact absurd hs1 hs₁.1
          | cons a t =>
            rw [hs1] at hh1
            simp at hh1
            rw [hh1]
            exact List.mem_cons_self a t
        exact not_mem_of_contains_false hs₁.2.1 (he ▸ hzmem)
    have hcond : ¬ (('/' :: intercalateChar '/' segs).take 2 = ['/', '/'] ∧
        ¬ ('/' :: intercalateChar '/' segs).take 3 = ['/', '/', '/']) := by
      rintro ⟨hA, -⟩
      cases hi : intercalateChar '/' segs with
      | nil => exact hinterne hi
      | cons z zs =>
        rw [hi] at hA
        simp [List.take_succ_cons] at hA
        exact hsecond z zs hi hA
    unfold initialSlashCount
    rw [if_pos (show ('/' :: intercalateChar '/' segs).take 1 = ['/'] from rfl),
      if_neg hcond]
  have hcompsok : ∀ w ∈ segs, ¬ w = [] ∧ ¬ w = ['.'] ∧ ¬ w = ['.', '.'] := by
    intro w hw
    have h := simpleSeg_elim (hall w hw)
    exact ⟨h.1, h.2.2.2.2.1, h.2.2.2.2.2.1⟩
  have hnorm : normpath ('/' :: intercalateChar '/' segs)
      = '/' :: intercalateChar '/' segs := by
    unfold normpath
    rw [if_neg (by simp)]
    dsimp only
    rw [hisc, hsplit, normComps_simple 1 segs hcompsok]
    simp [List.replicate]
  have hfilter : (([] : PathStr) :: segs).filter (fun w => w ≠ []) = segs := by
    rw [List.filter_cons_of_neg (by simp)]
    exact List.filter_eq_self.mpr (fun a ha => by simpa using hnz a ha)
  unfold translatePath
  dsimp only
  rw [takeUntil_of_not_mem hq, takeUntil_of_not_mem hh, hrstrip, hre]
  simp only [Bool.false_eq_true, if_false]
  rw [hnorm, hsplit, hfilter]
  exact translateFold_simple segs dir h1 h2 hall

/-- C4: for every file placed under the root, a GET of its relative path
answers 200 with a body byte-identical to the stored contents: no
compression or decompression is applied to any served body. -/
theorem get_serves_exact_bytes (fs : Fs) (dir : PathStr) (segs : List PathStr)
    (content : List Nat)
    (h1 : ¬ dir = []) (h2 : endsWithS dir ['/'] = false)
    (hne : segs ≠ []) (hall : ∀ w ∈ segs, simpleSeg w = true)
    (hf : fsFind fs (relPath dir segs) = some (Entry.file content)) :
    (handleRequest fs dir "GET" ('/' :: intercalateChar '/' segs)).status = 200 ∧
    (handleRequest fs dir "GET" ('/' :: intercalateChar '/' segs)).body
      = some content := by
  have ht := translatePath_relative dir segs h1 h2 hne hall
  have hnz : ∀ w ∈ segs, ¬ w = [] := fun w hw => (simpleSeg_elim (hall w hw)).1
  have hns : endsWithS (translatePath dir ('/' :: intercalateChar '/' segs)) ['/']
      = false := by
    rw [ht]
    obtain ⟨c, hc, w, hw, hcw⟩ := relPath_getLast dir segs hne hnz
    cases hcon : endsWithS (relPath dir segs) ['/'] with
    | false => rfl
    | true =>
      rw [endsWithS_single, hc] at hcon
      injection hcon with h'
      exact absurd (h' ▸ hcw)
        (not_mem_of_contains_false (simpleSeg_elim (hall w hw)).2.1)
  have hf' : fsFind fs (translatePath dir ('/' :: intercalateChar '/' segs))
      = some (Entry.file content) := by rw [ht]; exact hf
  have hfacts := file_response_facts fs dir ('/' :: intercalateChar '/' segs)
    content hf' hns
  exact ⟨hfacts.1, hfacts.2.1⟩

theorem get_serves_exact_bytes_witness :
    (handleRequest [("Build/game.wasm".toList, Entry.file [1, 2, 3])]
        "Build".toList "GET" ('/' :: intercalateChar '/' ["game.wasm".toList])).status
      = 200 ∧
    (handleRequest [("Build/game.wasm".toList, Entry.file [1, 2, 3])]
        "Build".toList "GET" ('/' :: intercalateChar '/' ["game.wasm".toList])).body
      = some [1, 2, 3] :=
  get_serves_exact_bytes [("Build/game.wasm".toList, Entry.file [1, 2, 3])]
    "Build".toList ["game.wasm".toList] [1, 2, 3]
    (by decide) (by decide) (by decide) (by decide) (by decide)

/-! ### C7/C8: every resolved path stays at or under the root -/

theorem underRootB_dir (dir : PathStr) : underRootB dir dir = true := by
  simp [underRootB]

theorem underRootB_of_prefix {dir k : PathStr} (h : (dir ++ ['/']) <+: k) :
    underRootB dir k = true := by
  simp [underRootB, List.isPrefixOf_iff_prefix, h]

theorem underRootB_elim {dir k : PathStr} (h : underRootB dir k = true) :
    k = dir ∨ (dir ++ ['/']) <+: k := by
  unfold underRootB at h
  rw [Bool.or_eq_true] at h
  rcases h with h | h
  · exact Or.inl (of_decide_eq_true h)
  · exact Or.inr (List.isPrefixOf_iff_prefix.mp h)

theorem underRootB_osJoin {dir acc w : PathStr} (h1 : ¬ dir = [])
    (h2 : endsWithS dir ['/'] = false) (hacc : underRootB dir acc = true)
    (hw : ¬ w.take 1 = ['/']) : underRootB dir (osJoin acc w) = true := by
  unfold osJoin
  rw [if_neg hw]
  rcases underRootB_elim hacc with rfl | hpre
  · have hc : ¬ (acc = [] ∨ endsWithS acc ['/'] = true) := by
      rintro (h | h)
      · exact h1 h
      · rw [h2] at h; exact Bool.false_ne_true h
    rw [if_neg hc]
    exact underRootB_of_prefix ⟨w, by simp⟩
  · split
    · exact underRootB_of_prefix (hpre.trans (List.prefix_append acc w))
    · exact underRootB_of_prefix (hpre.trans (List.prefix_append acc ('/' :: w)))

theorem underRootB_foldAll (dir : PathStr) (h1 : ¬ dir = [])
    (h2 : endsWithS dir ['/'] = false) :
    ∀ (ws : List PathStr) (acc : PathStr), underRootB dir acc = true →
    underRootB dir (ws.foldl (fun acc word =>
      if word.contains '/' ∨ word = ['.'] ∨ word = ['.', '.'] then acc
      else osJoin acc word) acc) = true
  | [], _, hacc => hacc
  | w :: ws, acc, hacc => by
    rw [List.foldl_cons]
    apply underRootB_foldAll dir h1 h2 ws
    by_cases hcond : (w.contains '/' = true ∨ w = ['.'] ∨ w = ['.', '.'])
    · rw [if_pos hcond]; exact hacc
    · rw [if_neg hcond]
      apply underRootB_osJoin h1 h2 hacc
      intro ht
      apply hcond
      left
      cases w with
      | nil => simp at ht
      | cons a t =>
        have ha : a = '/' := by simpa using ht
        rw [ha]
        exact List.elem_iff.mpr (List.mem_cons_self '/' t)

theorem translatePath_underRoot (dir raw : PathStr) (h1 : ¬ dir = [])
    (h2 : endsWithS dir ['/'] = false) :
    underRootB dir (translatePath dir raw) = true := by
  have hfold := underRootB_foldAll dir h1 h2
    ((splitOnChar '/' (normpath (takeUntil '#' (takeUntil '?' raw)))).filter (· ≠ []))
    dir (underRootB_dir dir)
  unfold translatePath
  dsimp only
  split
  · rcases underRootB_elim hfold with heq | hpre
    · rw [heq]
      exact underRootB_of_prefix ⟨[], by simp⟩
    · exact underRootB_of_prefix (hpre.trans (List.prefix_append _ _))
  · exact hfold

/-- C7 counterexample: the claim says a traversal path resolving outside the
root is answered 403; the code resolves `/../secret` by discarding the `..`
segment (landing inside the root) and answers 404, never 403. -/
theorem traversal_403_counterexample :
    specEscapes "/../secret".toList = true ∧
    ¬ (handleRequest [] "Build".toList "GET" "/../secret".toList).status = 403 ∧
    (handleRequest [] "Build".toList "GET" "/../secret".toList).status = 404 := by
  decide

/-- C7 (amended): a request path whose `..` segments would escape the root
is instead resolved to a path at or under the root (`translate_path`
discards `..` components), and the response status is never 403 — the
request is answered for the safely resolved path (404 when it names
nothing). -/
theorem traversal_resolves_inside_root (fs : Fs) (dir raw : PathStr)
    (h1 : ¬ dir = []) (h2 : endsWithS dir ['/'] = false)
    (hesc : specEscapes raw = true) :
    underRootB dir (translatePath dir raw) = true ∧
    ¬ (handleRequest fs dir "GET" raw).status = 403 := by
  refine ⟨translatePath_underRoot dir raw h1 h2, ?_⟩
  intro hcon
  have hmem := handleRequest_status_mem fs dir "GET" raw
  rw [hcon] at hmem
  simp at hmem

theorem traversal_resolves_inside_root_witness :
    underRootB "Build".toList (translatePath "Build".toList "/../x".toList) = true ∧
    ¬ (handleRequest [] "Build".toList "GET" "/../x".toList).status = 403 :=
  traversal_resolves_inside_root [] "Build".toList "/../x".toList
    (by decide) (by decide) (by decide)

/-! ### C8: the response depends only on the part of the filesystem under
the root -/

theorem fsFind_restrict {dir k : PathStr} (fs : Fs) (h : underRootB dir k = true) :
    fsFind (restrictRoot dir fs) k = fsFind fs k := by
  induction fs with
  | nil => rfl
  | cons ke rest ih =>
    obtain ⟨k', e⟩ := ke
    by_cases hk : underRootB dir k' = true
    · have hr : restrictRoot dir ((k', e) :: rest) = (k', e) :: restrictRoot dir rest := by
        unfold restrictRoot
        exact @List.filter_cons_of_pos (PathStr × Entry)
          (fun ke => underRootB dir ke.1) (k', e) rest hk
      rw [hr]
      show (if k' = k then some e else fsFind (restrictRoot dir rest) k)
        = (if k' = k then some e else fsFind rest k)
      by_cases hke : k' = k
      · rw [if_pos hke, if_pos hke]
      · rw [if_neg hke, if_neg hke]
        exact ih
    · have hr : restrictRoot dir ((k', e) :: rest) = restrictRoot dir rest := by
        unfold restrictRoot
        exact @List.filter_cons_of_neg (PathStr × Entry)
          (fun ke => underRootB dir ke.1) (k', e) rest (by simpa using hk)
      have hke : ¬ k' = k := fun he => hk (he.symm ▸ h)
      rw [hr]
      show fsFind (restrictRoot dir rest) k = (if k' = k then some e else fsFind rest k)
      rw [if_neg hke]
      exact ih

theorem stripTrailingSlash_underRoot {dir k : PathStr}
    (h2 : endsWithS dir ['/'] = false) (h : underRootB dir k = true) :
    underRootB dir (stripTrailingSlash k) = true := by
  unfold stripTrailingSlash
  by_cases he : endsWithS k ['/'] = true
  · rw [if_pos he]
    rcases underRootB_elim h with rfl | hpre
    · rw [h2] at he
      exact absurd he Bool.false_ne_true
    · obtain ⟨t, rfl⟩ := hpre
      rcases List.eq_nil_or_concat t with rfl | ⟨t', a, rfl⟩
      · have hd : ((dir ++ ['/']) ++ ([] : PathStr)).dropLast = dir := by
          rw [List.append_nil, List.dropLast_concat]
        rw [hd]
        exact underRootB_dir dir
      · have hd : ((dir ++ ['/']) ++ t'.concat a).dropLast = (dir ++ ['/']) ++ t' := by
          rw [List.concat_eq_append, ← List.append_assoc, List.dropLast_concat]
        rw [hd]
        exact underRootB_of_prefix (List.prefix_append _ _)
  · rw [if_neg he]
    exact h

theorem pathIsDir_restrict {dir k : PathStr} (fs : Fs)
    (h2 : endsWithS dir ['/'] = false) (h : underRootB dir k = true) :
    pathIsDir (restrictRoot dir fs) k = pathIsDir fs k := by
  unfold pathIsDir
  rw [fsFind_restrict fs (stripTrailingSlash_underRoot h2 h)]

theorem pathIsFile_restrict {dir k : PathStr} (fs : Fs)
    (h : underRootB dir k = true) :
    pathIsFile (restrictRoot dir fs) k = pathIsFile fs k := by
  unfold pathIsFile
  rw [fsFind_restrict fs h]

theorem pathExists_restrict {dir k : PathStr} (fs : Fs)
    (h2 : endsWithS dir ['/'] = false) (h : underRootB dir k = true) :
    pathExists (restrictRoot dir fs) k = pathExists fs k := by
  unfold pathExists
  rw [fsFind_restrict fs h, pathIsDir_restrict fs h2 h]

theorem fileContent_restrict {dir k : PathStr} (fs : Fs)
    (h : underRootB dir k = true) :
    fileContent (restrictRoot dir fs) k = fileContent fs k := by
  unfold fileContent
  rw [fsFind_restrict fs h]

theorem pathSize_restrict {dir k : PathStr} (fs : Fs)
    (h : underRootB dir k = true) :
    pathSize (restrictRoot dir fs) k = pathSize fs k := by
  unfold pathSize
  rw [fileContent_restrict fs h]

theorem listEntryName_none {dir base k' : PathStr}
    (hk : ¬ underRootB dir k' = true) (hst : underRootB dir base = true)
    (e : Entry) : listEntryName base (k', e) = none := by
  have hnp : ¬ ((base ++ ['/']).isPrefixOf k' = true) := by
    intro hpf
    apply hk
    have hp := List.isPrefixOf_iff_prefix.mp hpf
    rcases underRootB_elim hst with heq | hpre
    · rw [heq] at hp
      exact underRootB_of_prefix hp
    · exact underRootB_of_prefix
        ((hpre.trans (List.prefix_append base ['/'])).trans hp)
  unfold listEntryName
  rw [if_neg hnp]

theorem listDirectoryBody_restrict {dir p : PathStr} (fs : Fs)
    (hst : underRootB dir (stripTrailingSlash p) = true) :
    listDirectoryBody (restrictRoot dir fs) p = listDirectoryBody fs p := by
  unfold listDirectoryBody
  suffices hkey : (restrictRoot dir fs).filterMap (listEntryName (stripTrailingSlash p))
      = fs.filterMap (listEntryName (stripTrailingSlash p)) by rw [hkey]
  induction fs with
  | nil => rfl
  | cons ke rest ih =>
    obtain ⟨k', e⟩ := ke
    by_cases hk : underRootB dir k' = true
    · have hr : restrictRoot dir ((k', e) :: rest) = (k', e) :: restrictRoot dir rest := by
        unfold restrictRoot
        exact @List.filter_cons_of_pos (PathStr × Entry)
          (fun ke => underRootB dir ke.1) (k', e) rest hk
      rw [hr, List.filterMap_cons, List.filterMap_cons, ih]
    · have hr : restrictRoot dir ((k', e) :: rest) = restrictRoot dir rest := by
        unfold restrictRoot
        exact @List.filter_cons_of_neg (PathStr × Entry)
          (fun ke => underRootB dir ke.1) (k', e) rest (by simpa using hk)
      rw [hr, ih, List.filterMap_cons, listEntryName_none hk hst]

theorem serveFile_restrict {dir k : PathStr} (fs : Fs) (m : String)
    (h : underRootB dir k = true) :
    serveFile (restrictRoot dir fs) m k = serveFile fs m k := by
  unfold serveFile
  rw [fsFind_restrict fs h]

theorem baseSendHead_restrict (dir : PathStr) (fs : Fs) (m : String) (raw : PathStr)
    (h1 : ¬ dir = []) (h2 : endsWithS dir ['/'] = false) :
    baseSendHead (restrictRoot dir fs) dir m raw = baseSendHead fs dir m raw := by
  have hur := translatePath_underRoot dir raw h1 h2
  have hst := stripTrailingSlash_underRoot h2 hur
  have hidx1 : underRootB dir (osJoin (translatePath dir raw) "index.html".toList)
      = true := underRootB_osJoin h1 h2 hur (by decide)
  have hidx2 : underRootB dir (osJoin (translatePath dir raw) "index.htm".toList)
      = true := underRootB_osJoin h1 h2 hur (by decide)
  unfold baseSendHead
  dsimp only
  rw [pathIsDir_restrict fs h2 hur, pathIsFile_restrict fs hidx1,
    pathIsFile_restrict fs hidx2, serveFile_restrict fs m hidx1,
    serveFile_restrict fs m hidx2, serveFile_restrict fs m hur,
    listDirectoryBody_restrict fs hst]

theorem sendHead_restrict (dir : PathStr) (fs : Fs) (m : String) (raw : PathStr)
    (h1 : ¬ dir = []) (h2 : endsWithS dir ['/'] = false) :
    sendHead (restrictRoot dir fs) dir m raw = sendHead fs dir m raw := by
  have hur := translatePath_underRoot dir raw h1 h2
  unfold sendHead
  dsimp only
  rw [pathExists_restrict fs h2 hur, pathSize_restrict fs hur,
    fsFind_restrict fs hur, baseSendHead_restrict dir fs m raw h1 h2]

theorem handleRequest_restrict (dir : PathStr) (fs : Fs) (m : String) (raw : PathStr)
    (h1 : ¬ dir = []) (h2 : endsWithS dir ['/'] = false) :
    handleRequest (restrictRoot dir fs) dir m raw = handleRequest fs dir m raw := by
  unfold handleRequest doGET doHEAD
  dsimp only
  rw [sendHead_restrict dir fs "GET" raw h1 h2,
    sendHead_restrict dir fs "HEAD" raw h1 h2]

/-- C8: the response to any request is a function of the part of the
filesystem at or under the root alone — two filesystems that agree there
(differing only in files outside the root, e.g. the targets of
`../../etc/passwd`-style traversal) produce identical responses, so no
response ever carries contents from outside the root. -/
theorem response_independent_of_outside_root (fs1 fs2 : Fs) (dir : PathStr)
    (method : String) (raw : PathStr)
    (h1 : ¬ dir = []) (h2 : endsWithS dir ['/'] = false)
    (hagree : restrictRoot dir fs1 = restrictRoot dir fs2) :
    handleRequest fs1 dir method raw = handleRequest fs2 dir method raw := by
  rw [← handleRequest_restrict dir fs1 method raw h1 h2, hagree,
    handleRequest_restrict dir fs2 method raw h1 h2]

theorem response_independent_of_outside_root_witness :
    handleRequest [("etc/passwd".toList, Entry.file [1])] "Build".toList "GET"
        "/../../etc/passwd".toList
      = handleRequest [("etc/passwd".toList, Entry.file [2])] "Build".toList "GET"
        "/../../etc/passwd".toList :=
  response_independent_of_outside_root
    [("etc/passwd".toList, Entry.file [1])] [("etc/passwd".toList, Entry.file [2])]
    "Build".toList "GET" "/../../etc/passwd".toList
    (by decide) (by decide) (by decide)
